import Mathlib

/-!
Shallow embedding of `cleanlab/latent_estimation.py` (confident-learning latent
estimation) over exact rationals, together with proofs checking the
specification's claims about it.

Python floats are modelled by `ℚ`; numpy arrays by `List ℚ` / `List (List ℚ)`;
fallible Python operations (TypeError and the like) by `Option`.
-/

namespace Cleanlab

/-- Numerical tolerance `1e-6` used in the confident-bin test. -/
def tol : ℚ := 1 / 1000000

/-- Python `len(np.unique(s))`: the number of distinct values of `s`. -/
def nUnique (s : List ℕ) : ℕ := s.dedup.length

/-- numpy `np.bincount(s)`: occurrence counts of each value `0 .. max s`;
empty array for empty input. -/
def bincount (s : List ℕ) : List ℕ :=
  if s = [] then [] else (List.range (s.foldr max 0 + 1)).map (fun k => s.count k)

/-- Modelled from the spec: `cleanlab.util.value_counts` is not under `src/`;
per the spec it yields the per-class empirical counts of the observed labels in
ascending class order (used to form the observed-label prior `ps`). -/
def value_counts (s : List ℕ) : List ℕ := bincount s

/-- numpy `np.mean` of a vector; the junk value on an empty vector is `0`
(numpy would produce NaN there). -/
def listMean (l : List ℚ) : ℚ := l.sum / l.length

/-- The column slice `psx[:, k][s == k]`: the predicted probability of class `k`
for exactly the examples whose observed label is `k`. -/
def selfProbs (s : List ℕ) (psx : List (List ℚ)) (k : ℕ) : List ℚ :=
  ((s.zip psx).filter (fun p => p.1 == k)).map (fun p => p.2.getD k 0)

/-- Default thresholds `[np.mean(psx[:,k][s == k]) for k in range(K)]`. -/
def defaultThresholds (s : List ℕ) (psx : List (List ℚ)) (K : ℕ) : List ℚ :=
  (List.range K).map (fun k => listMean (selfProbs s psx k))

/-- One row of `psx_bool = (psx >= thresholds - 1e-6)`: the boolean vector of
confident bins of one example (numpy broadcasting pairs entry `k` of the row
with entry `k` of the threshold vector). -/
def confidentBins (thr : List ℚ) (row : List ℚ) : List Bool :=
  (row.zip thr).map (fun p => decide (p.2 - tol ≤ p.1))

/-- Helper for `argmaxList`: `best` is the index of the running maximum `bv`,
`i` is the index of the head of the remaining list. -/
def argmaxAux : List ℚ → ℕ → ℕ → ℚ → ℕ
  | [], _, best, _ => best
  | x :: xs, i, best, bv =>
    if bv < x then argmaxAux xs (i + 1) i x else argmaxAux xs (i + 1) best bv

/-- numpy `np.argmax` on a vector of floats: the index of the first occurrence
of the maximum (junk value `0` on the empty vector, where numpy errors). -/
def argmaxList : List ℚ → ℕ
  | [] => 0
  | x :: xs => argmaxAux xs 1 0 x

/-- numpy `np.argmax` on a boolean vector: the index of the first `true`, and
`0` when every entry is `false`. -/
def firstTrueIdx (l : List Bool) : ℕ := if l.any id then l.findIdx id else 0

/-- Per-example count of confident bins, `psx_bool.sum(axis=1)` for one row. -/
def numConfident (thr : List ℚ) (row : List ℚ) : ℕ :=
  (confidentBins thr row).count true

/-- One entry of `true_label_guess = np.where(more_than_one_confident,
psx_argmax, confident_argmax)`. -/
def trueLabelGuess (thr : List ℚ) (row : List ℚ) : ℕ :=
  if 1 < numConfident thr row then argmaxList row
  else firstTrueIdx (confidentBins thr row)

/-- The parallel arrays `y_confident` and `s_confident`, kept as one list of
(guessed true label, observed label) pairs: only the examples with at least one
confident bin are retained. -/
def confidentPairs (s : List ℕ) (psx : List (List ℚ)) (thr : List ℚ) :
    List (ℕ × ℕ) :=
  ((s.zip psx).filter (fun p => (confidentBins thr p.2).any id)).map
    (fun p => (trueLabelGuess thr p.2, p.1))

/-- The confident pairs on the default path (`K` and `thresholds` omitted),
which is the path `calibrate_confident_joint` always takes. -/
def pairsDefault (s : List ℕ) (psx : List (List ℚ)) : List (ℕ × ℕ) :=
  confidentPairs s psx (defaultThresholds s psx (nUnique s))

/-- The sorted list of distinct labels occurring in `l` (sklearn's
`unique_labels`, numpy's `np.unique`). -/
def uniqueSorted (l : List ℕ) : List ℕ := List.insertionSort (· ≤ ·) l.dedup

/-- sklearn `confusion_matrix(yTrue, yPred)`: rows and columns are indexed by
the sorted distinct labels occurring in either argument (so the matrix is
`L × L` for `L` such labels, NOT forced to be `K × K`; in particular it is
empty for empty inputs). Entry `(a, b)` counts positions where `yTrue` has the
`a`-th label and `yPred` the `b`-th. -/
def confusion_matrix (yTrue yPred : List ℕ) : List (List ℕ) :=
  let labs := uniqueSorted (yTrue ++ yPred)
  labs.map (fun a => labs.map (fun b => List.count (a, b) (yTrue.zip yPred)))

/-- numpy `.T` of a square matrix. -/
def matT (m : List (List ℕ)) : List (List ℕ) :=
  (List.range m.length).map (fun i => m.map (fun row => row.getD i 0))

/-- `compute_confident_joint(s, psx, K=None, thresholds=None)`: the vectorized
confident-joint computation, returning
`confusion_matrix(y_confident, s_confident).T`.  The `K` argument is used only
for the default thresholds, exactly as in the source. -/
def compute_confident_joint (s : List ℕ) (psx : List (List ℚ))
    (Kopt : Option ℕ) (thrOpt : Option (List ℚ)) : List (List ℕ) :=
  let K := Kopt.getD (nUnique s)
  let thr := thrOpt.getD (defaultThresholds s psx K)
  let pairs := confidentPairs s psx thr
  matT (confusion_matrix (pairs.map Prod.fst) (pairs.map Prod.snd))

/-- Cast a matrix of counts to rationals. -/
def natMatToQ (m : List (List ℕ)) : List (List ℚ) :=
  m.map (fun r => r.map (Nat.cast : ℕ → ℚ))

/-- `calibrate_confident_joint(confident_joint, s, psx)`.  Faithful to the
source: the `confidentJoint` argument is overwritten by a fresh
`compute_confident_joint(s, psx)` (default `K` and thresholds) before any use.
The two numpy lines
`(confident_joint.T / confident_joint.sum(axis=1) * s_counts).T` and
`calibrated_cj / np.sum(calibrated_cj) * len(s)` are de-vectorized: entry
`(i,j)` becomes `cj[i][j] / rowsum_i * s_counts[i]`, then `x / total * N`. -/
def calibrate_confident_joint (confidentJoint : List (List ℚ)) (s : List ℕ)
    (psx : List (List ℚ)) : List (List ℚ) :=
  let s_counts := bincount s
  let cj := natMatToQ (compute_confident_joint s psx none none)
  let step1 := (cj.zip s_counts).map
    (fun p => p.1.map (fun x => x / p.1.sum * (p.2 : ℚ)))
  let total := (step1.map List.sum).sum
  step1.map (fun r => r.map (fun x => x / total * (s.length : ℚ)))

/-- Python builtin `sum` applied to a 2-D numpy array: it iterates over the
rows and adds them elementwise, producing the vector of column sums (not a
scalar). -/
def pySumRows (m : List (List ℚ)) : List ℚ :=
  match m with
  | [] => []
  | r :: rs => rs.foldl (fun a b => (a.zip b).map (fun p => p.1 + p.2)) r

/-- Python `float()` applied to a numpy array: defined only for size-1 arrays;
raises TypeError (here `none`) otherwise. -/
def floatOfArray (v : List ℚ) : Option ℚ :=
  match v with
  | [x] => some x
  | _ => none

/-- `estimate_joint(confident_joint, s, psx)`: the source divides by
`float(sum(calibrated_cj))` with Python's BUILTIN `sum`, which over a 2-D array
yields the length-K vector of column sums; `float` of that vector is a
TypeError (`none`) whenever `K ≠ 1`. -/
def estimate_joint (confidentJoint : List (List ℚ)) (s : List ℕ)
    (psx : List (List ℚ)) : Option (List (List ℚ)) :=
  let c := calibrate_confident_joint confidentJoint s psx
  match floatOfArray (pySumRows c) with
  | none => none
  | some t => some (c.map (fun r => r.map (fun x => x / t)))

/-- The Python `force_ps` argument: a bool or an int. -/
inductive ForcePs where
  | bool (b : Bool)
  | int (n : ℕ)

/-- `sgd_epochs = 5 if force_ps is True else 1; if type(force_ps) == int:
sgd_epochs = force_ps` (in Python, `type(True) == int` is `False`). -/
def sgdEpochs : ForcePs → ℕ
  | .bool true => 5
  | .bool false => 1
  | .int n => n

/-- Python truthiness of `force_ps` (`if force_ps:`). -/
def forceTruthy : ForcePs → Bool
  | .bool b => b
  | .int n => n != 0

/-- `ps = value_counts(s) / float(len(s))`. -/
def psOf (s : List ℕ) : List ℚ :=
  (value_counts s).map (fun c => (Nat.cast c : ℚ) / (s.length : ℚ))

/-- Elementwise vector sum (numpy `+` on equal-length vectors). -/
def vecAdd (a b : List ℚ) : List ℚ := (a.zip b).map (fun p => p.1 + p.2)

/-- Elementwise vector difference. -/
def vecSub (a b : List ℚ) : List ℚ := (a.zip b).map (fun p => p.1 - p.2)

/-- Scalar times vector. -/
def vecScale (c : ℚ) (a : List ℚ) : List ℚ := a.map (fun x => c * x)

/-- `confident_joint.sum(axis=1) / float(np.sum(confident_joint))`: the
normalized row-sum marginal of a (calibrated) joint. -/
def jointMarginal (c : List (List ℚ)) : List ℚ :=
  (c.map List.sum).map (fun x => x / (c.map List.sum).sum)

/-- The loop body of `estimate_confident_joint_from_probabilities`, threading
the thresholds array (whose in-place `+=` update this state models), the
accumulated list `cjs` and the last computed joint.  The `else` branch models
the `break`: the loop exits after appending, with no threshold update. -/
def ecjLoop (s : List ℕ) (psx : List (List ℚ)) (K : ℕ) (ps : List ℚ)
    (force : ForcePs) :
    ℕ → List ℚ → List (List (List ℚ)) → Option (List (List ℚ)) →
    List (List (List ℚ)) × Option (List (List ℚ)) × List ℚ
  | 0, thr, cjs, last => (cjs, last, thr)
  | n + 1, thr, cjs, _ =>
    let cj0 := natMatToQ (compute_confident_joint s psx (some K) (some thr))
    let cj := calibrate_confident_joint cj0 s psx
    if forceTruthy force then
      let thr' := vecAdd thr (vecScale (1 / 2) (vecSub (jointMarginal cj) ps))
      ecjLoop s psx K ps force n thr' (cjs ++ [cj]) (some cj)
    else
      (cjs ++ [cj], some cj, thr)

/-- `estimate_confident_joint_from_probabilities(s, psx, thresholds, force_ps)`
with all observable state: the list of per-pass calibrated joints, the final
joint (`none` models the NameError when zero passes run), and the final
contents of the thresholds array. -/
def estimateCJFull (s : List ℕ) (psx : List (List ℚ))
    (thrOpt : Option (List ℚ)) (force : ForcePs) :
    List (List (List ℚ)) × Option (List (List ℚ)) × List ℚ :=
  let K := nUnique s
  let ps := psOf s
  let thr0 := thrOpt.getD (defaultThresholds s psx K)
  ecjLoop s psx K ps force (sgdEpochs force) thr0 [] none

/-- The function's ordinary return value (`return_list_of_converging_cj_matrices
= False`). -/
def estimate_confident_joint_from_probabilities (s : List ℕ)
    (psx : List (List ℚ)) (thrOpt : Option (List ℚ)) (force : ForcePs) :
    Option (List (List ℚ)) :=
  (estimateCJFull s psx thrOpt force).2.1

/-- The return value with `return_list_of_converging_cj_matrices = True`. -/
def estimateCJList (s : List ℕ) (psx : List (List ℚ))
    (thrOpt : Option (List ℚ)) (force : ForcePs) : List (List (List ℚ)) :=
  (estimateCJFull s psx thrOpt force).1

/-- The final contents of the thresholds array after the call (the caller's
array when a numpy array was passed in, since `np.asarray` aliases it and `+=`
updates in place). -/
def estimateCJThr (s : List ℕ) (psx : List (List ℚ))
    (thrOpt : Option (List ℚ)) (force : ForcePs) : List ℚ :=
  (estimateCJFull s psx thrOpt force).2.2

/-- The thresholds the call starts from: the caller's, or the defaults. -/
def resolveThr (s : List ℕ) (psx : List (List ℚ)) (thrOpt : Option (List ℚ)) :
    List ℚ :=
  thrOpt.getD (defaultThresholds s psx (nUnique s))

/-- One adaptive-threshold update as it actually behaves: since the calibrator
recomputes the joint from `(s, psx)` with default thresholds, the calibrated
joint of every pass is the constant `calibrate_confident_joint [] s psx`, and
`thresholds += 0.5 * (joint_ps - ps)` adds the same increment every pass. -/
def sgdStep (s : List ℕ) (psx : List (List ℚ)) (thr : List ℚ) : List ℚ :=
  vecAdd thr (vecScale (1 / 2)
    (vecSub (jointMarginal (calibrate_confident_joint [] s psx)) (psOf s)))

/-- numpy `.trace()` of a square matrix of rationals. -/
def traceQ (m : List (List ℚ)) : ℚ :=
  ((List.range m.length).map (fun i => (m.getD i []).getD i 0)).sum

/-- `np.sum` of a matrix (a true scalar, unlike Python's builtin `sum`). -/
def matTotal (m : List (List ℚ)) : ℚ := (m.map List.sum).sum

/-- Python `int()`: truncation toward zero. -/
def pyInt (q : ℚ) : ℤ := if 0 ≤ q then ⌊q⌋ else ⌈q⌉

/-- Rounding to the nearest integer (the `round` the claim speaks of; at the
inputs used below every usual tie-breaking convention agrees). -/
def specRound (q : ℚ) : ℤ := ⌊q + 1 / 2⌋

/-- `num_label_errors(labels, psx, confident_joint=None)`: normalizes the
(possibly internally estimated) confident joint, and returns
`int((1 - joint.trace()) * len(labels))`. -/
def num_label_errors (labels : List ℕ) (psx : List (List ℚ))
    (cjOpt : Option (List (List ℚ))) : Option ℤ :=
  let cjRes := match cjOpt with
    | some cj => some cj
    | none => estimate_confident_joint_from_probabilities labels psx none
        (.bool false)
  match cjRes with
  | none => none
  | some cj =>
    let joint := cj.map (fun r => r.map (fun x => x / matTotal cj))
    some (pyInt ((1 - traceQ joint) * (labels.length : ℚ)))

/-- Modelled from the spec: the three functions imported from
`cleanlab.latent_algebra` (`compute_inv_noise_matrix`, `compute_py`,
`compute_noise_matrix_from_inverse`) are not under `src/`; `converge_estimates`
is embedded generically over them, so every theorem below holds for any
implementation.  This is the inner loop body of `converge_estimates`:
`inverse_noise_matrix = f_inv(py, noise_matrix, ps);
py = f_py(ps, noise_matrix, inverse_noise_matrix)`. -/
def innerUpdates
    (fInv : List ℚ → List (List ℚ) → List ℚ → List (List ℚ))
    (fPy : List ℚ → List (List ℚ) → List (List ℚ) → List ℚ)
    (ps : List ℚ) (nm : List (List ℚ)) :
    ℕ → List ℚ × List (List ℚ) → List ℚ × List (List ℚ)
  | 0, st => st
  | n + 1, (py, _inv) =>
    let inv1 := fInv py nm ps
    let py1 := fPy ps nm inv1
    innerUpdates fInv fPy ps nm n (py1, inv1)

/-- The outer loop body of `converge_estimates`: run the inner loop, then
`noise_matrix = f_nm(ps, inverse_noise_matrix, py)` once. -/
def outerUpdates
    (fInv : List ℚ → List (List ℚ) → List ℚ → List (List ℚ))
    (fPy : List ℚ → List (List ℚ) → List (List ℚ) → List ℚ)
    (fNm : List ℚ → List (List ℚ) → List ℚ → List (List ℚ))
    (ps : List ℚ) (invIters : ℕ) :
    ℕ → List ℚ × List (List ℚ) × List (List ℚ) →
    List ℚ × List (List ℚ) × List (List ℚ)
  | 0, st => st
  | n + 1, (py, nm, inv) =>
    let pyInv := innerUpdates fInv fPy ps nm invIters (py, inv)
    let nm1 := fNm ps pyInv.2 pyInv.1
    outerUpdates fInv fPy fNm ps invIters n (pyInv.1, nm1, pyInv.2)

/-- `converge_estimates(ps, py, noise_matrix, inverse_noise_matrix,
inv_noise_matrix_iterations, noise_matrix_iterations)`, generic over the three
`latent_algebra` functions; returns `(py, noise_matrix,
inverse_noise_matrix)`. -/
def converge_estimates
    (fInv : List ℚ → List (List ℚ) → List ℚ → List (List ℚ))
    (fPy : List ℚ → List (List ℚ) → List (List ℚ) → List ℚ)
    (fNm : List ℚ → List (List ℚ) → List ℚ → List (List ℚ))
    (ps py : List ℚ) (nm inv : List (List ℚ))
    (invIters nmIters : ℕ) :
    List ℚ × List (List ℚ) × List (List ℚ) :=
  outerUpdates fInv fPy fNm ps invIters nmIters (py, nm, inv)

/-- The inner fixed-point step as the spec states it, as a function to be
iterated: from `(py, inv)` compute the new inverse noise matrix from
`(py, noise_matrix, ps)`, then the new `py` from `(ps, noise_matrix, inv)`. -/
def consistencyInnerStep
    (fInv : List ℚ → List (List ℚ) → List ℚ → List (List ℚ))
    (fPy : List ℚ → List (List ℚ) → List (List ℚ) → List ℚ)
    (ps : List ℚ) (nm : List (List ℚ)) :
    List ℚ × List (List ℚ) → List ℚ × List (List ℚ) :=
  fun st => (fPy ps nm (fInv st.1 nm ps), fInv st.1 nm ps)

/-- The outer fixed-point step as the spec states it: iterate the inner step
`invIters` times with the noise matrix held fixed, then recompute the noise
matrix once from `(ps, inv, py)`. -/
def consistencyOuterStep
    (fInv : List ℚ → List (List ℚ) → List ℚ → List (List ℚ))
    (fPy : List ℚ → List (List ℚ) → List (List ℚ) → List ℚ)
    (fNm : List ℚ → List (List ℚ) → List ℚ → List (List ℚ))
    (ps : List ℚ) (invIters : ℕ) :
    List ℚ × List (List ℚ) × List (List ℚ) →
    List ℚ × List (List ℚ) × List (List ℚ) :=
  fun st =>
    let pyInv := (consistencyInnerStep fInv fPy ps st.2.1)^[invIters]
      (st.1, st.2.2)
    (pyInv.1, fNm ps pyInv.2 pyInv.1, pyInv.2)

/-- One-hot probability row: probability `1` at class `c`, `0` elsewhere. -/
def oneHot (K c : ℕ) : List ℚ :=
  (List.range K).map (fun j => if j = c then (1 : ℚ) else 0)

/-- The per-example decision rule exactly as the specification words it: the
confident bins are the classes `k` with `row[k] ≥ thr[k] - 1e-6`; no bin means
the example is excluded (`none`); exactly one bin means that class; more than
one bin means the argmax over the full row. -/
def specClassify (thr : List ℚ) (row : List ℚ) : Option ℕ :=
  let bins := (List.range thr.length).filter
    (fun k => decide (thr.getD k 0 - tol ≤ row.getD k 0))
  match bins with
  | [] => none
  | [k] => some k
  | _ => some (argmaxList row)

/-- The calibration procedure as the specification words it (section 4.3),
applied to the GIVEN raw joint: rescale each row to the empirical per-class
count, then rescale the whole matrix so its total is `len(s)`.  Used to state
what the claim asserts the adaptive loop does with the joint it computed from
the current thresholds. -/
def specCalibrate (raw : List (List ℚ)) (s : List ℕ) : List (List ℚ) :=
  let s_counts := bincount s
  let step1 := (raw.zip s_counts).map
    (fun p => p.1.map (fun x => x / p.1.sum * (p.2 : ℚ)))
  let total := (step1.map List.sum).sum
  step1.map (fun r => r.map (fun x => x / total * (s.length : ℚ)))

/-! ### Generic list lemmas -/

theorem sum_map_add {α M : Type} [AddCommMonoid M] (l : List α) (g h : α → M) :
    (l.map (fun x => g x + h x)).sum = (l.map g).sum + (l.map h).sum := by
  induction l with
  | nil => simp
  | cons x t ih =>
    simp only [List.map_cons, List.sum_cons, ih]
    exact add_add_add_comm _ _ _ _

theorem sum_range_indicator (n m : ℕ) :
    ((List.range n).map (fun j => if j = m then 1 else 0)).sum =
      if m < n then 1 else 0 := by
  induction n with
  | zero => simp
  | succ n ih =>
    rw [List.range_succ, List.map_append, List.sum_append, ih]
    simp only [List.map_cons, List.map_nil, List.sum_cons, List.sum_nil]
    split_ifs <;> omega

theorem count_pairs_row (l : List (ℕ × ℕ)) (n i : ℕ) (h : ∀ p ∈ l, p.1 < n) :
    ((List.range n).map (fun j => List.count (j, i) l)).sum =
      l.countP (fun p => p.2 == i) := by
  induction l with
  | nil => simp
  | cons q t ih =>
    have hq : q.1 < n := h q (by simp)
    have ht : ∀ p ∈ t, p.1 < n := fun p hp => h p (by simp [hp])
    simp only [List.count_cons, List.countP_cons]
    rw [sum_map_add, ih ht]
    congr 1
    rcases q with ⟨a, b⟩
    simp only at hq
    by_cases hb : b = i
    · subst hb
      have hfun : ∀ j ∈ List.range n,
          (if (a, b) == (j, b) then (1:ℕ) else 0) = if j = a then 1 else 0 := by
        intro j _
        by_cases hj : j = a
        · subst hj; simp
        · simp only [Prod.mk.injEq, beq_iff_eq, Prod.ext_iff]
          split_ifs with hcon
          · omega
          · rfl
      rw [List.map_congr_left hfun, sum_range_indicator]
      simp [hq]
    · have hfun : ∀ j ∈ List.range n,
          (if (a, b) == (j, i) then (1:ℕ) else 0) = 0 := by
        intro j _
        simp only [beq_iff_eq, Prod.ext_iff]
        split_ifs with hcon
        · exact absurd hcon.2 hb
        · rfl
      rw [List.map_congr_left hfun]
      simp [hb]

theorem sum_range_count (l : List ℕ) (n : ℕ) (h : ∀ x ∈ l, x < n) :
    ((List.range n).map (fun k => l.count k)).sum = l.length := by
  induction l with
  | nil => simp
  | cons x t ih =>
    have hx : x < n := h x (by simp)
    have ht : ∀ y ∈ t, y < n := fun y hy => h y (by simp [hy])
    simp only [List.count_cons, List.length_cons]
    rw [sum_map_add, ih ht]
    congr 1
    have hfun : ∀ k ∈ List.range n,
        (if x == k then (1:ℕ) else 0) = if k = x then 1 else 0 := by
      intro k _
      simp only [beq_iff_eq]
      split_ifs <;> omega
    rw [List.map_congr_left hfun, sum_range_indicator]
    simp [hx]

theorem sum_lt_card_mul (l : List ℚ) (c : ℚ) (hne : l ≠ [])
    (h : ∀ x ∈ l, x < c) : l.sum < (l.length : ℚ) * c := by
  induction l with
  | nil => exact absurd rfl hne
  | cons x t ih =>
    rcases eq_or_ne t [] with ht | ht
    · subst ht
      simpa using h x (by simp)
    · have hx : x < c := h x (by simp)
      have hts : t.sum < (t.length : ℚ) * c :=
        ih ht (fun y hy => h y (by simp [hy]))
      simp only [List.sum_cons, List.length_cons]
      push_cast
      nlinarith

theorem exists_mean_le (l : List ℚ) (hne : l ≠ []) :
    ∃ v ∈ l, listMean l ≤ v := by
  rw [listMean]
  by_contra hcon
  push_neg at hcon
  have hlen : (0:ℚ) < (l.length : ℚ) := by
    have : 0 < l.length := List.length_pos.mpr hne
    exact_mod_cast this
  have := sum_lt_card_mul l (l.sum / (l.length : ℚ)) hne hcon
  rw [mul_div_cancel₀] at this
  · exact lt_irrefl _ this
  · exact ne_of_gt hlen

theorem sum_map_div_mul (l : List ℚ) (c b : ℚ) :
    (l.map (fun x => x / c * b)).sum = l.sum / c * b := by
  induction l with
  | nil => simp
  | cons x t ih => simp [ih, add_div, add_mul]

theorem sum_map_div (l : List ℚ) (c : ℚ) :
    (l.map (fun x => x / c)).sum = l.sum / c := by
  induction l with
  | nil => simp
  | cons x t ih => simp [ih, add_div]

theorem sum_map_div_mul_fn {α : Type} (l : List α) (f : α → ℚ) (c b : ℚ) :
    (l.map (fun x => f x / c * b)).sum = (l.map f).sum / c * b := by
  induction l with
  | nil => simp
  | cons x t ih => simp [ih, add_div, add_mul]

theorem mem_zip_of_mem_left {α β : Type} {a : α} {l1 : List α} {l2 : List β}
    (ha : a ∈ l1) (hlen : l1.length = l2.length) : ∃ b, (a, b) ∈ l1.zip l2 := by
  obtain ⟨i, hi, rfl⟩ := List.mem_iff_getElem.mp ha
  have hi2 : i < l2.length := hlen ▸ hi
  refine ⟨l2[i], ?_⟩
  have hz : i < (l1.zip l2).length := by
    simp [List.length_zip, hi, hi2]
  have heq : (l1.zip l2)[i] = (l1[i], l2[i]) := List.getElem_zip
  exact heq ▸ List.getElem_mem hz

theorem le_foldr_max (l : List ℕ) (x : ℕ) (hx : x ∈ l) : x ≤ l.foldr max 0 := by
  induction l with
  | nil => simp at hx
  | cons y t ih =>
    rcases List.mem_cons.mp hx with rfl | hxt
    · exact le_max_left _ _
    · exact le_trans (ih hxt) (le_max_right _ _)

theorem foldr_max_le (l : List ℕ) (m : ℕ) (h : ∀ x ∈ l, x ≤ m) :
    l.foldr max 0 ≤ m := by
  induction l with
  | nil => simp
  | cons y t ih =>
    simp only [List.foldr_cons]
    exact max_le (h y (by simp)) (ih (fun x hx => h x (by simp [hx])))

theorem bincount_eq (s : List ℕ) (n : ℕ) (hn : 0 < n)
    (h1 : ∀ x ∈ s, x < n) (h2 : n - 1 ∈ s) :
    bincount s = (List.range n).map (fun k => s.count k) := by
  have hne : s ≠ [] := List.ne_nil_of_mem h2
  have hmax : s.foldr max 0 = n - 1 := by
    refine le_antisymm (foldr_max_le s (n - 1) (fun x hx => ?_)) (le_foldr_max s _ h2)
    have := h1 x hx
    omega
  rw [bincount, if_neg hne, hmax]
  congr 2
  omega

/-! ### Bounds for the guess functions -/

theorem argmaxAux_lt (l : List ℚ) : ∀ (i best : ℕ) (bv : ℚ), best < i →
    argmaxAux l i best bv < i + l.length := by
  induction l with
  | nil => intro i best bv h; simpa [argmaxAux] using h
  | cons x xs ih =>
    intro i best bv h
    simp only [argmaxAux, List.length_cons]
    split_ifs
    · have := ih (i + 1) i x (by omega)
      omega
    · have := ih (i + 1) best bv (by omega)
      omega

theorem argmaxList_lt_length (l : List ℚ) (h : l ≠ []) :
    argmaxList l < l.length := by
  match l, h with
  | x :: xs, _ =>
    have := argmaxAux_lt xs 1 0 x (by omega)
    simp only [argmaxList, List.length_cons]
    omega

theorem length_confidentBins (thr row : List ℚ) :
    (confidentBins thr row).length = min row.length thr.length := by
  simp [confidentBins]

theorem firstTrueIdx_lt_length (l : List Bool) (h : l.any id = true) :
    firstTrueIdx l < l.length := by
  rw [firstTrueIdx, if_pos h]
  refine List.findIdx_lt_length_of_exists ?_
  simpa using h

theorem trueLabelGuess_lt (thr row : List ℚ) (K : ℕ) (hrow : row.length = K)
    (hthr : thr.length = K) (hany : (confidentBins thr row).any id = true) :
    trueLabelGuess thr row < K := by
  have hfti := firstTrueIdx_lt_length _ hany
  rw [length_confidentBins, hrow, hthr, min_self] at hfti
  have hK : 0 < K := by omega
  have hne : row ≠ [] := by
    intro hcon
    rw [hcon] at hrow
    simp at hrow
    omega
  rw [trueLabelGuess]
  split_ifs
  · have := argmaxList_lt_length row hne
    omega
  · exact hfti

/-! ### The label set of the confusion matrix -/

theorem uniqueSorted_eq_range (l : List ℕ) (n : ℕ) (hsub : ∀ x ∈ l, x < n)
    (hsup : ∀ k < n, k ∈ l) : uniqueSorted l = List.range n := by
  have hperm1 : List.Perm (uniqueSorted l) l.dedup := List.perm_insertionSort _ _
  have hnodup : (uniqueSorted l).Nodup := hperm1.nodup_iff.mpr (List.nodup_dedup l)
  have hmem : ∀ x, x ∈ uniqueSorted l ↔ x ∈ List.range n := by
    intro x
    rw [hperm1.mem_iff, List.mem_dedup, List.mem_range]
    exact ⟨hsub x, fun h => hsup x h⟩
  have hperm : List.Perm (uniqueSorted l) (List.range n) :=
    (List.perm_ext_iff_of_nodup hnodup (List.nodup_range n)).mpr hmem
  exact List.eq_of_perm_of_sorted hperm (List.sorted_insertionSort _ _)
    (List.sorted_le_range n)

theorem matT_map_map (l : List ℕ) (f : ℕ → ℕ → ℕ) :
    matT (l.map (fun a => l.map (f a))) =
      l.map (fun a => l.map (fun b => f b a)) := by
  apply List.ext_getElem
  · simp [matT]
  · intro i h1 h2
    have hi : i < l.length := by simpa [matT] using h1
    apply List.ext_getElem
    · simp [matT]
    · intro j hj1 hj2
      have hj : j < l.length := by simpa [matT] using hj1
      simp only [matT, List.length_map, List.getElem_map, List.getElem_range]
      have hb : i < (l.map (f l[j])).length := by simpa using hi
      rw [List.getD_eq_getElem _ _ hb, List.getElem_map]

theorem matT_confusion_eq (pairs : List (ℕ × ℕ)) (n : ℕ)
    (hlabs : uniqueSorted (pairs.map Prod.fst ++ pairs.map Prod.snd) =
      List.range n) :
    matT (confusion_matrix (pairs.map Prod.fst) (pairs.map Prod.snd)) =
      (List.range n).map (fun i => (List.range n).map
        (fun j => List.count (j, i) pairs)) := by
  have hzip : (pairs.map Prod.fst).zip (pairs.map Prod.snd) = pairs := by
    rw [List.zip_map']
    simp
  rw [confusion_matrix]
  simp only [hzip, hlabs]
  exact matT_map_map (List.range n) (fun a b => List.count (a, b) pairs)

/-! ### Membership facts about the confident pairs -/

theorem mem_confidentPairs (s : List ℕ) (psx : List (List ℚ)) (thr : List ℚ)
    (p : ℕ × ℕ) (hp : p ∈ confidentPairs s psx thr) :
    ∃ q ∈ s.zip psx, (confidentBins thr q.2).any id = true ∧
      p = (trueLabelGuess thr q.2, q.1) := by
  simp only [confidentPairs, List.mem_map, List.mem_filter] at hp
  obtain ⟨q, ⟨hq, hconf⟩, rfl⟩ := hp
  exact ⟨q, hq, hconf, rfl⟩

theorem confidentPairs_fst_lt (s : List ℕ) (psx : List (List ℚ))
    (thr : List ℚ) (K : ℕ) (hthr : thr.length = K)
    (h4 : ∀ r ∈ psx, r.length = K) :
    ∀ p ∈ confidentPairs s psx thr, p.1 < K := by
  intro p hp
  obtain ⟨q, hq, hconf, rfl⟩ := mem_confidentPairs s psx thr p hp
  exact trueLabelGuess_lt thr q.2 K (h4 q.2 (List.of_mem_zip hq).2) hthr hconf

theorem confidentPairs_snd_lt (s : List ℕ) (psx : List (List ℚ))
    (thr : List ℚ) (K : ℕ) (h1 : ∀ x ∈ s, x < K) :
    ∀ p ∈ confidentPairs s psx thr, p.2 < K := by
  intro p hp
  obtain ⟨q, hq, _, rfl⟩ := mem_confidentPairs s psx thr p hp
  exact h1 q.1 (List.of_mem_zip hq).1

theorem defaultThresholds_length (s : List ℕ) (psx : List (List ℚ)) (K : ℕ) :
    (defaultThresholds s psx K).length = K := by
  simp [defaultThresholds]

theorem class_confident_example (s : List ℕ) (psx : List (List ℚ)) (K k : ℕ)
    (hk : k < K) (hks : k ∈ s) (h3 : psx.length = s.length)
    (h4 : ∀ r ∈ psx, r.length = K) :
    ∃ q ∈ s.zip psx, q.1 = k ∧
      (confidentBins (defaultThresholds s psx K) q.2).any id = true := by
  obtain ⟨row0, hrow0⟩ := mem_zip_of_mem_left hks h3.symm
  have hfilter : (k, row0) ∈ (s.zip psx).filter (fun p => p.1 == k) :=
    List.mem_filter.mpr ⟨hrow0, by simp⟩
  have hvals_ne : selfProbs s psx k ≠ [] := by
    apply List.ne_nil_of_mem
    exact List.mem_map_of_mem _ hfilter
  obtain ⟨v, hv_mem, hv_ge⟩ := exists_mean_le (selfProbs s psx k) hvals_ne
  rw [selfProbs] at hv_mem
  obtain ⟨q, hq_f, hq_v⟩ := List.mem_map.mp hv_mem
  have hq_zip : q ∈ s.zip psx := (List.mem_filter.mp hq_f).1
  have hq_k : q.1 = k := by
    have := (List.mem_filter.mp hq_f).2
    simpa using this
  refine ⟨q, hq_zip, hq_k, ?_⟩
  have hrowlen : q.2.length = K := h4 _ (List.of_mem_zip hq_zip).2
  have hthrlen : (defaultThresholds s psx K).length = K :=
    defaultThresholds_length s psx K
  have hbinlen : (confidentBins (defaultThresholds s psx K) q.2).length = K := by
    rw [length_confidentBins, hrowlen, hthrlen, min_self]
  have hkb : k < (confidentBins (defaultThresholds s psx K) q.2).length := by
    rw [hbinlen]
    exact hk
  have hkr : k < q.2.length := by
    rw [hrowlen]
    exact hk
  have hkz : k < (q.2.zip (defaultThresholds s psx K)).length := by
    simp [List.length_zip, hrowlen, hthrlen, hk]
  have hkt : k < (defaultThresholds s psx K).length := by
    rw [hthrlen]
    exact hk
  have hentry : (confidentBins (defaultThresholds s psx K) q.2)[k] = true := by
    simp only [confidentBins, List.getElem_map, List.getElem_zip,
      decide_eq_true_eq]
    have hthrk : (defaultThresholds s psx K)[k] =
        listMean (selfProbs s psx k) := by
      simp [defaultThresholds]
    have hrowk : q.2[k] = v := by
      rw [← List.getD_eq_getElem q.2 0 hkr]
      exact hq_v
    rw [hthrk, hrowk]
    have htol : (0:ℚ) < tol := by norm_num [tol]
    linarith [hv_ge]
  refine List.any_eq_true.mpr ⟨_, List.getElem_mem hkb, ?_⟩
  rw [hentry]
  rfl

theorem confidentPairs_snd_cover (s : List ℕ) (psx : List (List ℚ)) (K : ℕ)
    (h2 : ∀ k < K, k ∈ s) (h3 : psx.length = s.length)
    (h4 : ∀ r ∈ psx, r.length = K) :
    ∀ k < K, ∃ p ∈ confidentPairs s psx (defaultThresholds s psx K), p.2 = k := by
  intro k hk
  obtain ⟨q, hq_zip, hq_k, hconf⟩ :=
    class_confident_example s psx K k hk (h2 k hk) h3 h4
  refine ⟨(trueLabelGuess (defaultThresholds s psx K) q.2, q.1), ?_, hq_k⟩
  rw [confidentPairs]
  exact List.mem_map_of_mem _ (List.mem_filter.mpr ⟨hq_zip, hconf⟩)

theorem labs_default_eq_range (s : List ℕ) (psx : List (List ℚ))
    (h1 : ∀ x ∈ s, x < nUnique s) (h2 : ∀ k < nUnique s, k ∈ s)
    (h3 : psx.length = s.length) (h4 : ∀ r ∈ psx, r.length = nUnique s) :
    uniqueSorted ((pairsDefault s psx).map Prod.fst ++
        (pairsDefault s psx).map Prod.snd) = List.range (nUnique s) := by
  apply uniqueSorted_eq_range
  · intro x hx
    rcases List.mem_append.mp hx with hx | hx
    · obtain ⟨p, hp, rfl⟩ := List.mem_map.mp hx
      exact confidentPairs_fst_lt s psx _ _ (defaultThresholds_length s psx _)
        h4 p hp
    · obtain ⟨p, hp, rfl⟩ := List.mem_map.mp hx
      exact confidentPairs_snd_lt s psx _ _ h1 p hp
  · intro k hk
    obtain ⟨p, hp, hpk⟩ := confidentPairs_snd_cover s psx _ h2 h3 h4 k hk
    exact List.mem_append.mpr (Or.inr (List.mem_map.mpr ⟨p, hp, hpk⟩))

theorem compute_cj_default (s : List ℕ) (psx : List (List ℚ))
    (h1 : ∀ x ∈ s, x < nUnique s) (h2 : ∀ k < nUnique s, k ∈ s)
    (h3 : psx.length = s.length) (h4 : ∀ r ∈ psx, r.length = nUnique s) :
    compute_confident_joint s psx none none =
      (List.range (nUnique s)).map (fun i => (List.range (nUnique s)).map
        (fun j => List.count (j, i) (pairsDefault s psx))) := by
  have hbody : compute_confident_joint s psx none none =
      matT (confusion_matrix ((pairsDefault s psx).map Prod.fst)
        ((pairsDefault s psx).map Prod.snd)) := rfl
  rw [hbody, matT_confusion_eq _ _ (labs_default_eq_range s psx h1 h2 h3 h4)]
theorem calibrate_closed (J : List (List ℚ)) (s : List ℕ) (psx : List (List ℚ))
    (h1 : ∀ x ∈ s, x < nUnique s) (h2 : ∀ k < nUnique s, k ∈ s)
    (h3 : psx.length = s.length) (h4 : ∀ r ∈ psx, r.length = nUnique s) :
    calibrate_confident_joint J s psx =
      (List.range (nUnique s)).map (fun i => (List.range (nUnique s)).map
        (fun j => (List.count (j, i) (pairsDefault s psx) : ℚ) /
          ((pairsDefault s psx).countP (fun p => p.2 == i) : ℚ) *
          (s.count i : ℚ))) := by
  rcases eq_or_ne s [] with rfl | hne
  · have hpsx : psx = [] := List.length_eq_zero.mp h3
    subst hpsx
    rfl
  · have hK : 0 < nUnique s := by
      have hd : s.dedup ≠ [] := by
        simpa [List.dedup_eq_nil] using hne
      have := List.length_pos.mpr hd
      simpa [nUnique] using this
    have hbin : bincount s = (List.range (nUnique s)).map (fun k => s.count k) :=
      bincount_eq s _ hK h1 (h2 _ (by omega))
    have hcjQ : natMatToQ (compute_confident_joint s psx none none) =
        (List.range (nUnique s)).map (fun i => (List.range (nUnique s)).map
          (fun j => (List.count (j, i) (pairsDefault s psx) : ℚ))) := by
      rw [natMatToQ, compute_cj_default s psx h1 h2 h3 h4]
      simp only [List.map_map, Function.comp_def]
    simp only [calibrate_confident_joint]
    rw [hcjQ, hbin, List.zip_map']
    simp only [List.map_map, Function.comp_def]
    have hfstlt : ∀ p ∈ pairsDefault s psx, p.1 < nUnique s :=
      confidentPairs_fst_lt s psx _ _ (defaultThresholds_length s psx _) h4
    have hrowsum : ∀ i : ℕ, (List.map
        (fun j => (List.count (j, i) (pairsDefault s psx) : ℚ))
        (List.range (nUnique s))).sum =
        ((pairsDefault s psx).countP (fun p => p.2 == i) : ℚ) := by
      intro i
      rw [← count_pairs_row (pairsDefault s psx) (nUnique s) i hfstlt,
        Nat.cast_list_sum, List.map_map]
      rfl
    have hcnt : ∀ i ∈ List.range (nUnique s),
        ((pairsDefault s psx).countP (fun p => p.2 == i) : ℚ) ≠ 0 := by
      intro i hi
      rw [List.mem_range] at hi
      obtain ⟨p, hp, hpi⟩ := confidentPairs_snd_cover s psx _ h2 h3 h4 i hi
      have hpos : 0 < (pairsDefault s psx).countP (fun p => p.2 == i) :=
        List.countP_pos_iff.mpr ⟨p, hp, by simp [hpi]⟩
      exact Nat.cast_ne_zero.mpr (Nat.pos_iff_ne_zero.mp hpos)
    have hNne : ((s.length : ℚ)) ≠ 0 :=
      Nat.cast_ne_zero.mpr (Nat.pos_iff_ne_zero.mp (List.length_pos.mpr hne))
    have hrowQ : ∀ i ∈ List.range (nUnique s),
        (List.map (fun j => (List.count (j, i) (pairsDefault s psx) : ℚ) /
            (List.map (fun j => (List.count (j, i) (pairsDefault s psx) : ℚ))
              (List.range (nUnique s))).sum *
            (List.count i s : ℚ)) (List.range (nUnique s))).sum =
          (List.count i s : ℚ) := by
      intro i hi
      rw [sum_map_div_mul_fn, hrowsum i, div_self (hcnt i hi), one_mul]
    have htotal : (List.map (fun i =>
        (List.map (fun j => (List.count (j, i) (pairsDefault s psx) : ℚ) /
            (List.map (fun j => (List.count (j, i) (pairsDefault s psx) : ℚ))
              (List.range (nUnique s))).sum *
            (List.count i s : ℚ)) (List.range (nUnique s))).sum)
        (List.range (nUnique s))).sum = (s.length : ℚ) := by
      rw [List.map_congr_left hrowQ, ← sum_range_count s _ h1,
        Nat.cast_list_sum, List.map_map]
      rfl
    apply List.map_congr_left
    intro i hi
    apply List.map_congr_left
    intro j hj
    rw [htotal, hrowsum i, div_mul_cancel₀ _ hNne]
theorem nUnique_pos (s : List ℕ) (hne : s ≠ []) : 0 < nUnique s := by
  have hd : s.dedup ≠ [] := by
    simpa [List.dedup_eq_nil] using hne
  have := List.length_pos.mpr hd
  simpa [nUnique] using this

theorem bincount_default (s : List ℕ) (h1 : ∀ x ∈ s, x < nUnique s)
    (h2 : ∀ k < nUnique s, k ∈ s) (hne : s ≠ []) :
    bincount s = (List.range (nUnique s)).map (fun k => s.count k) :=
  bincount_eq s _ (nUnique_pos s hne) h1 (h2 _ (by
    have := nUnique_pos s hne
    omega))

theorem bincount_cast_sum (s : List ℕ) (h1 : ∀ x ∈ s, x < nUnique s)
    (h2 : ∀ k < nUnique s, k ∈ s) :
    ((bincount s).map (Nat.cast : ℕ → ℚ)).sum = (s.length : ℚ) := by
  rcases eq_or_ne s [] with rfl | hne
  · rfl
  · rw [bincount_default s h1 h2 hne, ← sum_range_count s _ h1,
      Nat.cast_list_sum]

theorem pairsDefault_rowsum (s : List ℕ) (psx : List (List ℚ))
    (h4 : ∀ r ∈ psx, r.length = nUnique s) (i : ℕ) :
    ((List.range (nUnique s)).map
      (fun j => (List.count (j, i) (pairsDefault s psx) : ℚ))).sum =
      ((pairsDefault s psx).countP (fun p => p.2 == i) : ℚ) := by
  have hfstlt : ∀ p ∈ pairsDefault s psx, p.1 < nUnique s :=
    confidentPairs_fst_lt s psx _ _ (defaultThresholds_length s psx _) h4
  rw [← count_pairs_row (pairsDefault s psx) (nUnique s) i hfstlt,
    Nat.cast_list_sum, List.map_map]
  rfl

theorem pairsDefault_countP_pos (s : List ℕ) (psx : List (List ℚ))
    (h2 : ∀ k < nUnique s, k ∈ s) (h3 : psx.length = s.length)
    (h4 : ∀ r ∈ psx, r.length = nUnique s) (i : ℕ) (hi : i < nUnique s) :
    0 < (pairsDefault s psx).countP (fun p => p.2 == i) := by
  obtain ⟨p, hp, hpi⟩ := confidentPairs_snd_cover s psx _ h2 h3 h4 i hi
  exact List.countP_pos_iff.mpr ⟨p, hp, by simp [hpi]⟩

theorem calibrate_rowsums (J : List (List ℚ)) (s : List ℕ)
    (psx : List (List ℚ)) (h1 : ∀ x ∈ s, x < nUnique s)
    (h2 : ∀ k < nUnique s, k ∈ s) (h3 : psx.length = s.length)
    (h4 : ∀ r ∈ psx, r.length = nUnique s) :
    (calibrate_confident_joint J s psx).map List.sum =
      (bincount s).map (Nat.cast : ℕ → ℚ) := by
  rcases eq_or_ne s [] with rfl | hne
  · have hpsx : psx = [] := List.length_eq_zero.mp h3
    subst hpsx
    rfl
  · rw [calibrate_closed J s psx h1 h2 h3 h4,
      bincount_default s h1 h2 hne, List.map_map, List.map_map]
    simp only [Function.comp_def]
    apply List.map_congr_left
    intro i hi
    rw [List.mem_range] at hi
    have hpos := pairsDefault_countP_pos s psx h2 h3 h4 i hi
    have hcne : ((pairsDefault s psx).countP (fun p => p.2 == i) : ℚ) ≠ 0 :=
      Nat.cast_ne_zero.mpr (Nat.pos_iff_ne_zero.mp hpos)
    rw [sum_map_div_mul_fn, pairsDefault_rowsum s psx h4 i,
      div_self hcne, one_mul]

theorem calibrate_total (J : List (List ℚ)) (s : List ℕ)
    (psx : List (List ℚ)) (h1 : ∀ x ∈ s, x < nUnique s)
    (h2 : ∀ k < nUnique s, k ∈ s) (h3 : psx.length = s.length)
    (h4 : ∀ r ∈ psx, r.length = nUnique s) :
    matTotal (calibrate_confident_joint J s psx) = (s.length : ℚ) := by
  rw [matTotal, calibrate_rowsums J s psx h1 h2 h3 h4,
    bincount_cast_sum s h1 h2]

theorem jointMarginal_calibrate (s : List ℕ) (psx : List (List ℚ))
    (h1 : ∀ x ∈ s, x < nUnique s) (h2 : ∀ k < nUnique s, k ∈ s)
    (h3 : psx.length = s.length) (h4 : ∀ r ∈ psx, r.length = nUnique s) :
    jointMarginal (calibrate_confident_joint [] s psx) = psOf s := by
  rw [jointMarginal, calibrate_rowsums [] s psx h1 h2 h3 h4,
    bincount_cast_sum s h1 h2, psOf, value_counts, List.map_map]
  rfl

/-- Claim C1: for every label vector in which every class of `[0, K)` (for
`K = len(np.unique(s))`) occurs at least once and every probability matrix of
matching shape, the matrix returned by `calibrate_confident_joint` has row sums
exactly equal to `np.bincount(s)` and total sum exactly equal to `len(s)` (over
exact rational arithmetic; rounding is then the identity). -/
theorem claim_c1_calibration (J : List (List ℚ)) (s : List ℕ)
    (psx : List (List ℚ)) (h1 : ∀ x ∈ s, x < nUnique s)
    (h2 : ∀ k < nUnique s, k ∈ s) (h3 : psx.length = s.length)
    (h4 : ∀ r ∈ psx, r.length = nUnique s) :
    (calibrate_confident_joint J s psx).map List.sum =
      (bincount s).map (Nat.cast : ℕ → ℚ) ∧
    matTotal (calibrate_confident_joint J s psx) = (s.length : ℚ) :=
  ⟨calibrate_rowsums J s psx h1 h2 h3 h4, calibrate_total J s psx h1 h2 h3 h4⟩

/-- Witness for C1 at a concrete input. -/
theorem claim_c1_witness :
    (calibrate_confident_joint [] [0, 1, 1]
        [[9/10, 1/10], [2/10, 8/10], [3/10, 7/10]]).map List.sum =
      (bincount [0, 1, 1]).map (Nat.cast : ℕ → ℚ) ∧
    matTotal (calibrate_confident_joint [] [0, 1, 1]
        [[9/10, 1/10], [2/10, 8/10], [3/10, 7/10]]) =
      (([0, 1, 1] : List ℕ).length : ℚ) :=
  claim_c1_calibration [] [0, 1, 1] [[9/10, 1/10], [2/10, 8/10], [3/10, 7/10]]
    (by decide) (by decide) (by decide) (by decide)
theorem traceQ_map_div (m : List (List ℚ)) (t : ℚ) :
    traceQ (m.map (fun r => r.map (fun x => x / t))) = traceQ m / t := by
  rw [traceQ, traceQ, List.length_map, ← sum_map_div, List.map_map]
  simp only [Function.comp_def]
  refine congrArg List.sum ?_
  apply List.map_congr_left
  intro i hi
  rw [List.mem_range] at hi
  have h1 : (m.map (fun r => r.map (fun x => x / t))).getD i [] =
      (m.getD i []).map (fun x => x / t) := by
    rw [List.getD_eq_getElem _ _ (by simpa using hi), List.getElem_map,
      List.getD_eq_getElem _ _ hi]
  rw [h1]
  rcases Nat.lt_or_ge i (m.getD i []).length with hlen | hlen
  · rw [List.getD_eq_getElem _ _ (by simpa using hlen), List.getElem_map,
      List.getD_eq_getElem _ _ hlen]
  · rw [List.getD_eq_default _ _ (by simpa using hlen),
      List.getD_eq_default _ _ hlen, zero_div]

/-- Claim C8 (amended): `num_label_errors` with a supplied confident joint
returns `int((1 - trace(cj)/sum(cj)) * N)`, where `int` truncates toward zero
(the claim said `round`, which the code does not do). -/
theorem claim_c8_truncation (labels : List ℕ) (psx : List (List ℚ))
    (cj : List (List ℚ)) :
    num_label_errors labels psx (some cj) =
      some (pyInt ((1 - traceQ cj / matTotal cj) * (labels.length : ℚ))) := by
  simp only [num_label_errors, traceQ_map_div]

unseal Rat.add Rat.mul Rat.inv Rat.sub in
/-- Counterexample for C8 as stated: with `N = 6` and a supplied confident
joint of trace fraction `11/20`, the code returns `int(2.7) = 2` while the
claimed `round(2.7)` is `3`. -/
theorem claim_c8_counterexample :
    num_label_errors [0, 0, 0, 1, 1, 1] [] (some [[11, 9], [0, 0]]) = some 2 ∧
    specRound ((1 - traceQ [[(11:ℚ), 9], [0, 0]] /
      matTotal [[(11:ℚ), 9], [0, 0]]) * (([0, 0, 0, 1, 1, 1] : List ℕ).length : ℚ)) = 3 := by
  constructor <;> decide

/-- Claim C4: `calibrate_confident_joint` ignores its `confident_joint`
argument entirely - any two passed-in joints yield identical output, because
the function recomputes the raw joint from `(s, psx)` with default thresholds
and discards the argument. -/
theorem claim_c4_argument_ignored (J1 J2 : List (List ℚ)) (s : List ℕ)
    (psx : List (List ℚ)) :
    calibrate_confident_joint J1 s psx = calibrate_confident_joint J2 s psx :=
  rfl

unseal Rat.add Rat.mul Rat.inv Rat.sub in
/-- Claim C2 (code evaluation): at a 2-class input on which calibration
succeeds (producing the identity matrix), `estimate_joint` crashes - Python's
builtin `sum` over the 2-D calibrated array returns the column-sum vector, and
`float()` of a size-2 vector raises TypeError, modelled as `none`. -/
theorem claim_c2_float_crash :
    estimate_joint [[0, 0], [0, 0]] [0, 1] [[1, 0], [0, 1]] = none ∧
    calibrate_confident_joint [[0, 0], [0, 0]] [0, 1] [[1, 0], [0, 1]] =
      [[1, 0], [0, 1]] := by
  constructor <;> decide

unseal Rat.add Rat.mul Rat.inv Rat.sub in
/-- Claim C10 (code evaluation): with thresholds no probability can reach,
every example is excluded and the code returns an EMPTY (0-row) matrix - the
confusion matrix over an empty label set - not the K x K zero matrix the
specification describes. -/
theorem claim_c10_empty_not_zero_matrix :
    compute_confident_joint [0, 1] [[1/2, 1/2], [1/2, 1/2]] (some 2)
      (some [2, 2]) = [] ∧
    ([] : List (List ℕ)) ≠ [[0, 0], [0, 0]] := by
  constructor <;> decide
theorem innerUpdates_eq_iterate
    (fInv : List ℚ → List (List ℚ) → List ℚ → List (List ℚ))
    (fPy : List ℚ → List (List ℚ) → List (List ℚ) → List ℚ)
    (ps : List ℚ) (nm : List (List ℚ)) (n : ℕ)
    (st : List ℚ × List (List ℚ)) :
    innerUpdates fInv fPy ps nm n st =
      (consistencyInnerStep fInv fPy ps nm)^[n] st := by
  induction n generalizing st with
  | zero => rfl
  | succ n ih =>
    rcases st with ⟨py, inv⟩
    rw [innerUpdates, ih, Function.iterate_succ_apply]
    rfl

theorem outerUpdates_eq_iterate
    (fInv : List ℚ → List (List ℚ) → List ℚ → List (List ℚ))
    (fPy : List ℚ → List (List ℚ) → List (List ℚ) → List ℚ)
    (fNm : List ℚ → List (List ℚ) → List ℚ → List (List ℚ))
    (ps : List ℚ) (invIters n : ℕ)
    (st : List ℚ × List (List ℚ) × List (List ℚ)) :
    outerUpdates fInv fPy fNm ps invIters n st =
      (consistencyOuterStep fInv fPy fNm ps invIters)^[n] st := by
  induction n generalizing st with
  | zero => rfl
  | succ n ih =>
    rcases st with ⟨py, nm, inv⟩
    rw [outerUpdates, ih, Function.iterate_succ_apply,
      innerUpdates_eq_iterate]
    rfl

/-- Claim C6: `converge_estimates` performs exactly `nmIters` outer iterations
of the step that first iterates `invIters` inner updates (recompute the
inverse noise matrix from `(py, nm, ps)`, then `py` from `(ps, nm, inv)`, with
the noise matrix held fixed) and only then recomputes the noise matrix once
from `(ps, inv, py)`; the three updated quantities are returned.  Stated
generically over the three `latent_algebra` functions (not under `src/`). -/
theorem claim_c6_converge_structure
    (fInv : List ℚ → List (List ℚ) → List ℚ → List (List ℚ))
    (fPy : List ℚ → List (List ℚ) → List (List ℚ) → List ℚ)
    (fNm : List ℚ → List (List ℚ) → List ℚ → List (List ℚ))
    (ps py : List ℚ) (nm inv : List (List ℚ)) (a b : ℕ) :
    converge_estimates fInv fPy fNm ps py nm inv a b =
      (consistencyOuterStep fInv fPy fNm ps a)^[b] (py, nm, inv) :=
  outerUpdates_eq_iterate fInv fPy fNm ps a b (py, nm, inv)
theorem calibrate_ignores_arg (J : List (List ℚ)) (s : List ℕ)
    (psx : List (List ℚ)) :
    calibrate_confident_joint J s psx = calibrate_confident_joint [] s psx :=
  rfl

theorem ecjLoop_truthy (s : List ℕ) (psx : List (List ℚ)) (K : ℕ)
    (ps : List ℚ) (force : ForcePs) (hf : forceTruthy force = true) (n : ℕ)
    (thr : List ℚ) (cjs : List (List (List ℚ)))
    (last : Option (List (List ℚ))) :
    ecjLoop s psx K ps force n thr cjs last =
      (cjs ++ List.replicate n (calibrate_confident_joint [] s psx),
       (if n = 0 then last else some (calibrate_confident_joint [] s psx)),
       (fun t => vecAdd t (vecScale (1/2) (vecSub
         (jointMarginal (calibrate_confident_joint [] s psx)) ps)))^[n] thr) := by
  induction n generalizing thr cjs last with
  | zero => simp [ecjLoop]
  | succ n ih =>
    rw [ecjLoop]
    simp only [calibrate_ignores_arg, hf, if_true, ih]
    simp only [Prod.mk.injEq]
    refine ⟨?_, ?_, ?_⟩
    · rw [List.append_assoc, List.singleton_append, ← List.replicate_succ]
    · simp
    · rw [← Function.iterate_succ_apply]
/-- Claim C5 (amended): `force_ps=True` runs exactly 5 passes, `force_ps=n`
exactly `n` passes, `force_ps=False` one pass with no threshold update; each
pass recomputes the confident joint from the current thresholds but the
calibrator discards it and recomputes from `(s, psx)` with default thresholds,
so every pass yields the same calibrated joint; thresholds are updated by
`+= 0.5 * (joint marginal - ps)` each adaptation pass, with no convergence
check (and a zero-pass integer leaves the result unbound, modelled `none`). -/
theorem claim_c5_adaptive_loop (s : List ℕ) (psx : List (List ℚ))
    (thrOpt : Option (List ℚ)) (n : ℕ) :
    estimateCJList s psx thrOpt (.bool true) =
      List.replicate 5 (calibrate_confident_joint [] s psx) ∧
    estimateCJList s psx thrOpt (.int n) =
      List.replicate n (calibrate_confident_joint [] s psx) ∧
    estimateCJList s psx thrOpt (.bool false) =
      [calibrate_confident_joint [] s psx] ∧
    estimate_confident_joint_from_probabilities s psx thrOpt (.bool true) =
      some (calibrate_confident_joint [] s psx) ∧
    estimate_confident_joint_from_probabilities s psx thrOpt (.int n) =
      (if n = 0 then none else some (calibrate_confident_joint [] s psx)) ∧
    estimate_confident_joint_from_probabilities s psx thrOpt (.bool false) =
      some (calibrate_confident_joint [] s psx) ∧
    estimateCJThr s psx thrOpt (.bool true) =
      (sgdStep s psx)^[5] (resolveThr s psx thrOpt) ∧
    estimateCJThr s psx thrOpt (.int n) =
      (sgdStep s psx)^[n] (resolveThr s psx thrOpt) ∧
    estimateCJThr s psx thrOpt (.bool false) = resolveThr s psx thrOpt := by
  have htrue := ecjLoop_truthy s psx (nUnique s) (psOf s) (.bool true) rfl 5
    (resolveThr s psx thrOpt) [] none
  have hfalse : ecjLoop s psx (nUnique s) (psOf s) (.bool false) 1
      (resolveThr s psx thrOpt) [] none =
      ([calibrate_confident_joint [] s psx],
        some (calibrate_confident_joint [] s psx),
        resolveThr s psx thrOpt) := by
    rw [ecjLoop]
    simp [calibrate_ignores_arg, forceTruthy, ecjLoop]
  have hint : ecjLoop s psx (nUnique s) (psOf s) (.int n) n
      (resolveThr s psx thrOpt) [] none =
      (List.replicate n (calibrate_confident_joint [] s psx),
        (if n = 0 then none else some (calibrate_confident_joint [] s psx)),
        (sgdStep s psx)^[n] (resolveThr s psx thrOpt)) := by
    cases n with
    | zero => simp [ecjLoop]
    | succ m =>
      have := ecjLoop_truthy s psx (nUnique s) (psOf s) (.int (m + 1))
        (by simp [forceTruthy]) (m + 1) (resolveThr s psx thrOpt) [] none
      rw [this]
      rfl
  refine ⟨?_, ?_, ?_, ?_, ?_, ?_, ?_, ?_, ?_⟩
  · show (ecjLoop s psx (nUnique s) (psOf s) (.bool true) 5
      (resolveThr s psx thrOpt) [] none).1 = _
    rw [htrue]
    rfl
  · show (ecjLoop s psx (nUnique s) (psOf s) (.int n) n
      (resolveThr s psx thrOpt) [] none).1 = _
    rw [hint]
  · show (ecjLoop s psx (nUnique s) (psOf s) (.bool false) 1
      (resolveThr s psx thrOpt) [] none).1 = _
    rw [hfalse]
  · show (ecjLoop s psx (nUnique s) (psOf s) (.bool true) 5
      (resolveThr s psx thrOpt) [] none).2.1 = _
    rw [htrue]
    rfl
  · show (ecjLoop s psx (nUnique s) (psOf s) (.int n) n
      (resolveThr s psx thrOpt) [] none).2.1 = _
    rw [hint]
  · show (ecjLoop s psx (nUnique s) (psOf s) (.bool false) 1
      (resolveThr s psx thrOpt) [] none).2.1 = _
    rw [hfalse]
  · show (ecjLoop s psx (nUnique s) (psOf s) (.bool true) 5
      (resolveThr s psx thrOpt) [] none).2.2 = _
    rw [htrue]
    rfl
  · show (ecjLoop s psx (nUnique s) (psOf s) (.int n) n
      (resolveThr s psx thrOpt) [] none).2.2 = _
    rw [hint]
  · show (ecjLoop s psx (nUnique s) (psOf s) (.bool false) 1
      (resolveThr s psx thrOpt) [] none).2.2 = _
    rw [hfalse]

unseal Rat.add Rat.mul Rat.inv Rat.sub in
/-- Counterexample to C5 as stated: at a concrete input with caller-supplied
thresholds `[9/10, 1/2]`, the adaptation pass's calibrated joint is NOT the
calibration (as the spec words it, section 4.3 steps applied to the given raw
joint) of the confident joint computed from the current thresholds: the
calibrator discards that joint and recomputes with default thresholds. -/
theorem claim_c5_counterexample :
    estimate_confident_joint_from_probabilities [0, 1]
        [[2/5, 3/5], [1/10, 9/10]] (some [9/10, 1/2]) (.int 1) ≠
      some (specCalibrate (natMatToQ (compute_confident_joint [0, 1]
        [[2/5, 3/5], [1/10, 9/10]] (some 2) (some [9/10, 1/2]))) [0, 1]) := by
  decide
theorem vecSub_self (v : List ℚ) : vecSub v v = List.replicate v.length 0 := by
  induction v with
  | nil => rfl
  | cons x t ih =>
    simp only [vecSub] at ih
    simp [vecSub, List.replicate_succ, ih]

theorem vecAdd_replicate_zero (v : List ℚ) :
    vecAdd v (List.replicate v.length 0) = v := by
  induction v with
  | nil => rfl
  | cons x t ih =>
    simp only [vecAdd] at ih
    simp [vecAdd, List.replicate_succ, ih]

theorem psOf_length (s : List ℕ) (h1 : ∀ x ∈ s, x < nUnique s)
    (h2 : ∀ k < nUnique s, k ∈ s) : (psOf s).length = nUnique s := by
  rcases eq_or_ne s [] with rfl | hne
  · simp [psOf, value_counts, bincount, nUnique]
  · rw [psOf, value_counts, bincount_default s h1 h2 hne]
    simp

theorem sgdStep_fixed (s : List ℕ) (psx : List (List ℚ)) (thr : List ℚ)
    (h1 : ∀ x ∈ s, x < nUnique s) (h2 : ∀ k < nUnique s, k ∈ s)
    (h3 : psx.length = s.length) (h4 : ∀ r ∈ psx, r.length = nUnique s)
    (h5 : thr.length = nUnique s) : sgdStep s psx thr = thr := by
  rw [sgdStep, jointMarginal_calibrate s psx h1 h2 h3 h4, vecSub_self]
  have hscale : vecScale (1/2) (List.replicate (psOf s).length 0) =
      List.replicate (psOf s).length 0 := by
    simp [vecScale]
  rw [hscale, psOf_length s h1 h2, ← h5, vecAdd_replicate_zero]

/-- Claim C9: with a caller-supplied thresholds array and `force_ps` enabled,
the contents of the (aliased, in-place updated) thresholds array after the
call equal the original thresholds: over exact arithmetic the adaptive update
`0.5 * (joint marginal - ps)` is exactly zero, because the calibrated joint's
normalized row sums equal the empirical label distribution. -/
theorem claim_c9_caller_thresholds_preserved (s : List ℕ)
    (psx : List (List ℚ)) (thr0 : List ℚ) (force : ForcePs)
    (h1 : ∀ x ∈ s, x < nUnique s) (h2 : ∀ k < nUnique s, k ∈ s)
    (h3 : psx.length = s.length) (h4 : ∀ r ∈ psx, r.length = nUnique s)
    (h5 : thr0.length = nUnique s) :
    estimateCJThr s psx (some thr0) force = thr0 := by
  have hfix : sgdStep s psx thr0 = thr0 :=
    sgdStep_fixed s psx thr0 h1 h2 h3 h4 h5
  cases force with
  | bool b =>
    cases b with
    | true =>
      show (ecjLoop s psx (nUnique s) (psOf s) (.bool true) 5 thr0 [] none).2.2
        = thr0
      rw [ecjLoop_truthy s psx (nUnique s) (psOf s) (.bool true) rfl 5 thr0
        [] none]
      exact Function.iterate_fixed hfix 5
    | false =>
      show (ecjLoop s psx (nUnique s) (psOf s) (.bool false) 1 thr0 [] none).2.2
        = thr0
      rw [ecjLoop]
      simp [forceTruthy]
  | int n =>
    cases n with
    | zero => rfl
    | succ m =>
      show (ecjLoop s psx (nUnique s) (psOf s) (.int (m + 1)) (m + 1) thr0 []
        none).2.2 = thr0
      rw [ecjLoop_truthy s psx (nUnique s) (psOf s) (.int (m + 1))
        (by simp [forceTruthy]) (m + 1) thr0 [] none]
      exact Function.iterate_fixed hfix (m + 1)

unseal Rat.add Rat.mul Rat.inv Rat.sub in
/-- Witness for C9 at a concrete input with two adaptation passes. -/
theorem claim_c9_witness :
    estimateCJThr [0, 1] [[1, 0], [0, 1]] (some [1/2, 1/3]) (.int 2) =
      [1/2, 1/3] :=
  claim_c9_caller_thresholds_preserved [0, 1] [[1, 0], [0, 1]] [1/2, 1/3]
    (.int 2) (by decide) (by decide) (by decide) (by decide) (by decide)
theorem filter_range_getD_cons (b : Bool) (t : List Bool) :
    (List.range (b :: t).length).filter (fun k => (b :: t).getD k false) =
      (if b then [0] else []) ++
        ((List.range t.length).filter (fun k => t.getD k false)).map Nat.succ := by
  rw [List.length_cons, List.range_succ_eq_map, List.filter_cons, List.filter_map]
  have hcomp : ((fun k => (b :: t).getD k false) ∘ Nat.succ) =
      (fun k => t.getD k false) := by
    funext k
    simp
  rw [hcomp]
  cases b <;> simp

theorem filter_range_getD_length (bl : List Bool) :
    ((List.range bl.length).filter (fun k => bl.getD k false)).length =
      bl.count true := by
  induction bl with
  | nil => rfl
  | cons b t ih =>
    rw [filter_range_getD_cons, List.length_append, List.length_map, ih,
      List.count_cons]
    cases b <;> simp <;> omega

theorem any_iff_filter_ne (bl : List Bool) :
    bl.any id = true ↔
      ((List.range bl.length).filter (fun k => bl.getD k false)) ≠ [] := by
  induction bl with
  | nil => simp
  | cons b t ih =>
    rw [filter_range_getD_cons]
    cases b
    · simpa using ih
    · simp

theorem findIdx_of_filter_singleton (bl : List Bool) (k : ℕ)
    (h : (List.range bl.length).filter (fun j => bl.getD j false) = [k]) :
    bl.findIdx id = k := by
  induction bl generalizing k with
  | nil => simp at h
  | cons b t ih =>
    rw [filter_range_getD_cons] at h
    cases b
    · simp only [if_neg Bool.false_ne_true, List.nil_append] at h
      rcases hF : (List.range t.length).filter (fun j => t.getD j false) with
        _ | ⟨a, rest⟩
      · rw [hF] at h
        simp at h
      · rw [hF] at h
        simp only [List.map_cons] at h
        have hk : a.succ = k := (List.cons_eq_cons.mp h).1
        have hrest : rest.map Nat.succ = [] := (List.cons_eq_cons.mp h).2
        have hrest2 : rest = [] := List.map_eq_nil_iff.mp hrest
        rw [List.findIdx_cons]
        simp only [id, cond_false]
        rw [ih a (by rw [hF, hrest2])]
        omega
    · simp only [if_pos rfl, List.singleton_append] at h
      have hk : 0 = k := (List.cons_eq_cons.mp h).1
      rw [List.findIdx_cons]
      simp [← hk]
theorem specClassify_filter_eq (thr row : List ℚ) (hlen : row.length = thr.length) :
    (List.range thr.length).filter
      (fun k => decide (thr.getD k 0 - tol ≤ row.getD k 0)) =
    (List.range (confidentBins thr row).length).filter
      (fun k => (confidentBins thr row).getD k false) := by
  have hblen : (confidentBins thr row).length = thr.length := by
    rw [length_confidentBins, hlen, min_self]
  rw [hblen]
  apply List.filter_congr
  intro k hk
  rw [List.mem_range] at hk
  have hkb : k < (confidentBins thr row).length := by
    rw [hblen]
    exact hk
  have hkr : k < row.length := by
    rw [hlen]
    exact hk
  have hkz : k < (row.zip thr).length := by
    simp [List.length_zip, hlen, hk]
  rw [List.getD_eq_getElem _ false hkb]
  simp only [confidentBins, List.getElem_map, List.getElem_zip]
  rw [List.getD_eq_getElem _ _ hkr, List.getD_eq_getElem _ _ hk]

theorem classify_pred_eq (thr row : List ℚ) (o i j : ℕ)
    (hlen : row.length = thr.length) :
    (((trueLabelGuess thr row, o) == (j, i)) &&
        (confidentBins thr row).any id) =
      ((o == i) && (specClassify thr row == some j)) := by
  rw [specClassify]
  rw [specClassify_filter_eq thr row hlen]
  rcases hF : (List.range (confidentBins thr row).length).filter
      (fun k => (confidentBins thr row).getD k false) with _ | ⟨k, krest⟩
  · -- no confident bin: both sides false
    have hany : (confidentBins thr row).any id = false := by
      rcases hany : (confidentBins thr row).any id with _ | _
      · rfl
      · exact absurd hF ((any_iff_filter_ne (confidentBins thr row)).mp hany)
    rw [hany]
    simp
  · have hany : (confidentBins thr row).any id = true := by
      rw [any_iff_filter_ne (confidentBins thr row), hF]
      simp
    have hcount : (confidentBins thr row).count true = krest.length + 1 := by
      rw [← filter_range_getD_length (confidentBins thr row), hF]
      simp
    rcases krest with _ | ⟨k2, krest2⟩
    · -- exactly one confident bin k
      have hguess : trueLabelGuess thr row = k := by
        rw [trueLabelGuess, numConfident, hcount]
        rw [if_neg (by simp)]
        rw [firstTrueIdx, if_pos hany]
        exact findIdx_of_filter_singleton (confidentBins thr row) k hF
      rw [hguess, hany]
      show ((k == j) && (o == i) && true) = ((o == i) && (k == j))
      cases hkj : (k == j) <;> cases hoi : (o == i) <;> rfl
    · -- more than one confident bin: guess is the row argmax
      have hguess : trueLabelGuess thr row = argmaxList row := by
        rw [trueLabelGuess, numConfident, hcount]
        rw [if_pos (by simp)]
      rw [hguess, hany]
      show ((argmaxList row == j) && (o == i) && true) =
        ((o == i) && (argmaxList row == j))
      cases hkj : (argmaxList row == j) <;> cases hoi : (o == i) <;> rfl
/-- Claim C3: provided every class in `[0, n)` occurs among the confident
examples (so that sklearn's label compression is the identity), the vectorized
`compute_confident_joint` with explicit thresholds equals the matrix whose
entry (observed label `i`, column `j`) counts exactly the examples classified
to `j` by the specification's decision rule: confident bins are classes with
probability at least threshold minus `1e-6`; zero bins excludes the example;
one bin guesses that class; several bins guess the argmax of the full row. -/
theorem claim_c3_decision_rule (s : List ℕ) (psx : List (List ℚ))
    (thr : List ℚ) (Kopt : Option ℕ) (n : ℕ)
    (hshape : ∀ r ∈ psx, r.length = thr.length)
    (hlabs : uniqueSorted ((confidentPairs s psx thr).map Prod.fst ++
      (confidentPairs s psx thr).map Prod.snd) = List.range n) :
    compute_confident_joint s psx Kopt (some thr) =
      (List.range n).map (fun i => (List.range n).map (fun j =>
        (s.zip psx).countP
          (fun p => p.1 == i && specClassify thr p.2 == some j))) := by
  have hbody : compute_confident_joint s psx Kopt (some thr) =
      matT (confusion_matrix ((confidentPairs s psx thr).map Prod.fst)
        ((confidentPairs s psx thr).map Prod.snd)) := rfl
  rw [hbody, matT_confusion_eq _ _ hlabs]
  apply List.map_congr_left
  intro i _
  apply List.map_congr_left
  intro j _
  rw [confidentPairs, List.count_eq_countP, List.countP_map,
    List.countP_filter]
  apply List.countP_congr
  intro p hp
  have hrow : p.2.length = thr.length := hshape p.2 (List.of_mem_zip hp).2
  have hkey := classify_pred_eq thr p.2 p.1 i j hrow
  simp only [Function.comp_apply]
  rw [hkey]

unseal Rat.add Rat.mul Rat.inv Rat.sub in
/-- Witness for C3 at a concrete input with explicit thresholds. -/
theorem claim_c3_witness :
    compute_confident_joint [0, 1] [[9/10, 6/10], [3/10, 8/10]] none
        (some [1/2, 1/2]) =
      (List.range 2).map (fun i => (List.range 2).map (fun j =>
        (([0, 1] : List ℕ).zip [[(9:ℚ)/10, 6/10], [3/10, 8/10]]).countP
          (fun p => p.1 == i && specClassify [1/2, 1/2] p.2 == some j))) :=
  claim_c3_decision_rule [0, 1] [[9/10, 6/10], [3/10, 8/10]] [1/2, 1/2] none 2
    (by decide) (by decide)
theorem oneHot_length (K c : ℕ) : (oneHot K c).length = K := by
  simp [oneHot]

theorem zip_map_self (s : List ℕ) (f : ℕ → List ℚ) :
    s.zip (s.map f) = s.map (fun c => (c, f c)) := by
  induction s with
  | nil => rfl
  | cons x t ih => simp [ih]

theorem count_range_eq (n m : ℕ) :
    (List.range n).count m = if m < n then 1 else 0 := by
  induction n with
  | zero => simp
  | succ n ih =>
    rw [List.range_succ, List.count_append, ih]
    simp only [List.count_cons, List.count_nil]
    split_ifs <;> simp_all <;> omega

theorem filter_range_singleton_eq (n c : ℕ) (h : c < n) :
    (List.range n).filter (fun j => j == c) = [c] := by
  induction n with
  | zero => omega
  | succ n ih =>
    rw [List.range_succ, List.filter_append]
    rcases Nat.lt_or_ge c n with hc | hc
    · rw [ih hc]
      have : (List.filter (fun j => j == c) [n]) = [] := by
        simp
        omega
      rw [this]
      simp
    · have hcn : c = n := by omega
      subst hcn
      have hnil : (List.range c).filter (fun j => j == c) = [] := by
        rw [List.filter_eq_nil_iff]
        intro a ha
        rw [List.mem_range] at ha
        simp
        omega
      rw [hnil]
      simp

theorem oneHot_thresholds (s : List ℕ) (h1 : ∀ x ∈ s, x < nUnique s)
    (h2 : ∀ k < nUnique s, k ∈ s) (k : ℕ) (hk : k < nUnique s) :
    listMean (selfProbs s (s.map (oneHot (nUnique s))) k) = 1 := by
  have hsp : selfProbs s (s.map (oneHot (nUnique s))) k =
      List.replicate (s.count k) 1 := by
    rw [selfProbs, zip_map_self, List.filter_map]
    have hcomp : ((fun p => p.1 == k) ∘ fun c => (c, oneHot (nUnique s) c)) =
        (fun c => c == k) := rfl
    rw [hcomp, List.filter_beq]
    simp only [List.map_replicate]
    congr 1
    show (oneHot (nUnique s) k).getD k 0 = 1
    rw [oneHot, List.getD_eq_getElem _ _ (by simpa using hk),
      List.getElem_map, List.getElem_range]
    simp
  rw [hsp, listMean]
  have hpos : 0 < s.count k := List.count_pos_iff.mpr (h2 k hk)
  simp only [List.sum_replicate, List.length_replicate, nsmul_eq_mul, mul_one]
  rw [div_self]
  exact Nat.cast_ne_zero.mpr (by omega)

theorem oneHot_bins (s : List ℕ) (h1 : ∀ x ∈ s, x < nUnique s)
    (h2 : ∀ k < nUnique s, k ∈ s) (c : ℕ) (hc : c < nUnique s) :
    confidentBins (defaultThresholds s (s.map (oneHot (nUnique s))) (nUnique s))
        (oneHot (nUnique s) c) =
      (List.range (nUnique s)).map (fun j => j == c) := by
  rw [confidentBins, oneHot, defaultThresholds, List.zip_map']
  rw [List.map_map]
  apply List.map_congr_left
  intro j hj
  rw [List.mem_range] at hj
  simp only [Function.comp_apply]
  rw [oneHot_thresholds s h1 h2 j hj]
  by_cases hjc : j = c
  · subst hjc
    simp only [if_pos rfl, beq_self_eq_true]
    rw [decide_eq_true_eq]
    norm_num [tol]
  · have hbeq : (j == c) = false := by simp [hjc]
    rw [if_neg hjc, hbeq]
    apply decide_eq_false
    norm_num [tol]
theorem oneHot_guess (s : List ℕ) (h1 : ∀ x ∈ s, x < nUnique s)
    (h2 : ∀ k < nUnique s, k ∈ s) (c : ℕ) (hc : c < nUnique s) :
    trueLabelGuess (defaultThresholds s (s.map (oneHot (nUnique s)))
      (nUnique s)) (oneHot (nUnique s) c) = c := by
  set bl := confidentBins (defaultThresholds s (s.map (oneHot (nUnique s)))
    (nUnique s)) (oneHot (nUnique s) c) with hbl
  have hbins := oneHot_bins s h1 h2 c hc
  have hblen : bl.length = nUnique s := by
    rw [hbl, hbins]
    simp
  have hfilt : (List.range bl.length).filter (fun j => bl.getD j false) =
      [c] := by
    rw [hblen]
    have hcong : ∀ j ∈ List.range (nUnique s),
        (bl.getD j false) = (j == c) := by
      intro j hj
      rw [List.mem_range] at hj
      have hstep : bl.getD j false =
          (List.map (fun j => j == c) (List.range (nUnique s))).getD j false := by
        rw [hbl, hbins]
      rw [hstep, List.getD_eq_getElem _ _ (by simpa using hj),
        List.getElem_map, List.getElem_range]
    rw [List.filter_congr hcong]
    exact filter_range_singleton_eq (nUnique s) c hc
  have hcount : bl.count true = 1 := by
    rw [← filter_range_getD_length bl, hfilt]
    rfl
  have hany : bl.any id = true := by
    rw [any_iff_filter_ne bl, hfilt]
    simp
  rw [trueLabelGuess, numConfident, ← hbl, hcount, if_neg (by omega),
    firstTrueIdx, if_pos hany]
  exact findIdx_of_filter_singleton bl c hfilt
theorem oneHot_pairs (s : List ℕ) (h1 : ∀ x ∈ s, x < nUnique s)
    (h2 : ∀ k < nUnique s, k ∈ s) :
    pairsDefault s (s.map (oneHot (nUnique s))) = s.map (fun c => (c, c)) := by
  rw [pairsDefault, confidentPairs, zip_map_self]
  have hfilter : (s.map (fun c => (c, oneHot (nUnique s) c))).filter
      (fun p => (confidentBins (defaultThresholds s
        (s.map (oneHot (nUnique s))) (nUnique s)) p.2).any id) =
      s.map (fun c => (c, oneHot (nUnique s) c)) := by
    rw [List.filter_eq_self]
    intro p hp
    obtain ⟨c, hcs, rfl⟩ := List.mem_map.mp hp
    have hc : c < nUnique s := h1 c hcs
    show (confidentBins _ (oneHot (nUnique s) c)).any id = true
    rw [oneHot_bins s h1 h2 c hc]
    refine List.any_eq_true.mpr ⟨(c == c), ?_, by simp⟩
    exact List.mem_map.mpr ⟨c, List.mem_range.mpr hc, rfl⟩
  rw [hfilter, List.map_map]
  apply List.map_congr_left
  intro c hcs
  have hc : c < nUnique s := h1 c hcs
  simp only [Function.comp_apply]
  rw [oneHot_guess s h1 h2 c hc]
theorem count_pair_diag (s : List ℕ) (i j : ℕ) :
    List.count (j, i) (s.map (fun c => (c, c))) =
      if j = i then s.count i else 0 := by
  rw [List.count_eq_countP, List.countP_map]
  by_cases hij : j = i
  · subst hij
    rw [if_pos rfl, List.count_eq_countP]
    apply List.countP_congr
    intro c _
    simp [Function.comp_apply, Prod.ext_iff, and_self]
  · rw [if_neg hij, List.countP_eq_length_filter]
    rw [show (List.filter ((fun a => a == (j, i)) ∘ fun c => (c, c)) s) = []
      from ?_]
    · rfl
    · rw [List.filter_eq_nil_iff]
      intro c _
      simp only [Function.comp_apply, beq_iff_eq, Prod.ext_iff]
      intro hcon
      exact hij (hcon.1.symm.trans hcon.2)

theorem traceQ_map_range (K : ℕ) (A : ℕ → ℕ → ℚ) :
    traceQ ((List.range K).map (fun i => (List.range K).map (A i))) =
      ((List.range K).map (fun i => A i i)).sum := by
  rw [traceQ, List.length_map, List.length_range]
  refine congrArg List.sum (List.map_congr_left ?_)
  intro i hi
  rw [List.mem_range] at hi
  have h1 : ((List.range K).map (fun i => (List.range K).map (A i))).getD i []
      = (List.range K).map (A i) := by
    rw [List.getD_eq_getElem _ _ (by simpa using hi), List.getElem_map,
      List.getElem_range]
  rw [h1, List.getD_eq_getElem _ _ (by simpa using hi), List.getElem_map,
    List.getElem_range]
theorem oneHot_shape_len (s : List ℕ) :
    (s.map (oneHot (nUnique s))).length = s.length := by
  simp

theorem oneHot_shape_rows (s : List ℕ) :
    ∀ r ∈ s.map (oneHot (nUnique s)), r.length = nUnique s := by
  intro r hr
  obtain ⟨c, _, rfl⟩ := List.mem_map.mp hr
  exact oneHot_length (nUnique s) c

theorem oneHot_cj_diag (s : List ℕ) (h1 : ∀ x ∈ s, x < nUnique s)
    (h2 : ∀ k < nUnique s, k ∈ s) :
    compute_confident_joint s (s.map (oneHot (nUnique s))) none none =
      (List.range (nUnique s)).map (fun i => (List.range (nUnique s)).map
        (fun j => if j = i then s.count i else 0)) := by
  rw [compute_cj_default s (s.map (oneHot (nUnique s))) h1 h2
    (oneHot_shape_len s) (oneHot_shape_rows s)]
  apply List.map_congr_left
  intro i _
  apply List.map_congr_left
  intro j _
  rw [oneHot_pairs s h1 h2, count_pair_diag]

theorem estimate_default_force_false (s : List ℕ) (psx : List (List ℚ)) :
    estimate_confident_joint_from_probabilities s psx none (.bool false) =
      some (calibrate_confident_joint [] s psx) := by
  show (ecjLoop s psx (nUnique s) (psOf s) (.bool false) 1
    (resolveThr s psx none) [] none).2.1 = _
  rw [ecjLoop]
  simp [calibrate_ignores_arg, forceTruthy, ecjLoop]
theorem countP_snd_diag (s : List ℕ) (i : ℕ) :
    (s.map (fun c => (c, c))).countP (fun p => p.2 == i) = s.count i := by
  rw [List.countP_map, List.count_eq_countP]
  apply List.countP_congr
  intro c _
  simp [Function.comp_apply]

unseal Rat.add Rat.mul Rat.inv Rat.sub in
theorem oneHot_num_label_errors (s : List ℕ)
    (h1 : ∀ x ∈ s, x < nUnique s) (h2 : ∀ k < nUnique s, k ∈ s) :
    num_label_errors s (s.map (oneHot (nUnique s))) none = some 0 := by
  rcases eq_or_ne s [] with rfl | hne
  · decide
  · have h3 : (s.map (oneHot (nUnique s))).length = s.length :=
      oneHot_shape_len s
    have h4 : ∀ r ∈ s.map (oneHot (nUnique s)), r.length = nUnique s :=
      oneHot_shape_rows s
    have hNpos : 0 < s.length := List.length_pos.mpr hne
    have hNne : ((s.length : ℚ)) ≠ 0 :=
      Nat.cast_ne_zero.mpr (Nat.pos_iff_ne_zero.mp hNpos)
    have htr : traceQ (calibrate_confident_joint [] s
        (s.map (oneHot (nUnique s)))) = (s.length : ℚ) := by
      rw [calibrate_closed [] s (s.map (oneHot (nUnique s))) h1 h2 h3 h4,
        traceQ_map_range]
      have hterm : ∀ i ∈ List.range (nUnique s),
          ((List.count (i, i) (pairsDefault s (s.map (oneHot (nUnique s)))) : ℚ) /
            ((pairsDefault s (s.map (oneHot (nUnique s)))).countP
              (fun p => p.2 == i) : ℚ) * (s.count i : ℚ)) =
          ((s.count i : ℕ) : ℚ) := by
        intro i hi
        rw [List.mem_range] at hi
        rw [oneHot_pairs s h1 h2, count_pair_diag, if_pos rfl,
          countP_snd_diag]
        have hcpos : 0 < s.count i := List.count_pos_iff.mpr (h2 i hi)
        rw [div_self (Nat.cast_ne_zero.mpr (Nat.pos_iff_ne_zero.mp hcpos)),
          one_mul]
      rw [List.map_congr_left hterm, ← sum_range_count s _ h1,
        Nat.cast_list_sum, List.map_map]
      rfl
    have htot : matTotal (calibrate_confident_joint [] s
        (s.map (oneHot (nUnique s)))) = (s.length : ℚ) :=
      calibrate_total [] s (s.map (oneHot (nUnique s))) h1 h2 h3 h4
    simp only [num_label_errors, estimate_default_force_false]
    rw [traceQ_map_div, htr, htot, div_self hNne]
    simp [pyInt]

/-- Claim C7: when every class occurs and the probability matrix is the exact
one-hot encoding of the observed labels, the confident joint is exactly the
diagonal matrix of per-class counts, and `num_label_errors` returns 0. -/
theorem claim_c7_noiseless_diagonal (s : List ℕ)
    (h1 : ∀ x ∈ s, x < nUnique s) (h2 : ∀ k < nUnique s, k ∈ s) :
    compute_confident_joint s (s.map (oneHot (nUnique s))) none none =
      (List.range (nUnique s)).map (fun i => (List.range (nUnique s)).map
        (fun j => if j = i then s.count i else 0)) ∧
    num_label_errors s (s.map (oneHot (nUnique s))) none = some 0 :=
  ⟨oneHot_cj_diag s h1 h2, oneHot_num_label_errors s h1 h2⟩

unseal Rat.add Rat.mul Rat.inv Rat.sub in
/-- Witness for C7 at a concrete input. -/
theorem claim_c7_witness :
    compute_confident_joint [0, 0, 1]
        ([0, 0, 1].map (oneHot (nUnique [0, 0, 1]))) none none =
      (List.range (nUnique [0, 0, 1])).map
        (fun i => (List.range (nUnique [0, 0, 1])).map
          (fun j => if j = i then ([0, 0, 1] : List ℕ).count i else 0)) ∧
    num_label_errors [0, 0, 1]
      ([0, 0, 1].map (oneHot (nUnique [0, 0, 1]))) none = some 0 :=
  claim_c7_noiseless_diagonal [0, 0, 1] (by decide) (by decide)
end Cleanlab
